import Mathlib

/-!
Shallow embedding of the list-extraction pipeline of
gerapy_auto_extractor/extractors/list.py and proofs about it.

Python strings (selector keys, anchor texts, tag paths, hrefs) are
modelled as List Char, so that lexicographic sorting and prefix tests are
explicit and computable.  Floating-point quantities computed by the code
(similarity scores, Gaussian probabilities, cluster scores) are modelled
as exact rationals where the code only compares and groups them, and as
real numbers where the code applies exp / log10.
-/

open Real

/-- Configuration of ListExtractor.__init__: the four thresholds. -/
structure ListExtractorParams where
  min_number : Nat
  min_length : Nat
  max_length : Nat
  similarity_threshold : ℚ

/-- Default constants LIST_MIN_NUMBER, LIST_MIN_LENGTH, LIST_MAX_LENGTH,
SIMILARITY_THRESHOLD from the top of list.py. -/
def defaultParams : ListExtractorParams :=
  { min_number := 5, min_length := 8, max_length := 35, similarity_threshold := 4/5 }

/-- self.avg_length = (self.min_length + self.max_length) / 2 (float division). -/
noncomputable def ListExtractorParams.avg_length (p : ListExtractorParams) : ℝ :=
  ((p.min_length : ℝ) + (p.max_length : ℝ)) / 2

/-- An anchor-like descendant: text, optional href attribute
(attrib.get returns None when absent), and the relative tag path used as
the grouping key for title-path voting. -/
structure AnchorDescendant where
  text : List Char
  href : Option (List Char)
  path : List Char
deriving DecidableEq, Repr

/-- A feature-decorated DOM node as consumed read-only by the extractor. -/
structure DecoratedNode where
  number_of_siblings : Nat
  parent_selector : List Char
  a_descendants_group_text_min_length : Nat
  a_descendants_group_text_max_length : Nat
  similarity_with_siblings : ℚ
  a_descendants : List AnchorDescendant
deriving DecidableEq, Repr

/-- An output record with title and url, as appended by _extract_from_cluster. -/
structure ExtractionRecord where
  title : List Char
  url : List Char
deriving DecidableEq, Repr

/-! ## Candidate Filter: first loop of _build_clusters -/

/-- The conjunction of the four guard conditions in the first loop of
_build_clusters: a descendant survives when none of the four continue
branches fires. -/
def keepsDescendant (p : ListExtractorParams) (d : DecoratedNode) : Bool :=
  !(d.number_of_siblings + 1 < p.min_number) &&
  !(d.a_descendants_group_text_min_length > p.max_length) &&
  !(d.a_descendants_group_text_max_length < p.min_length) &&
  !(d.similarity_with_siblings < p.similarity_threshold)

/-- defaultdict(list) behaviour: append value to the group of the key,
creating the group at the end when the key is new. -/
def appendGroup {α β : Type} [DecidableEq α] (key : α) (x : β) :
    List (α × List β) → List (α × List β)
  | [] => [(key, [x])]
  | (k, v) :: rest =>
    if k = key then (k, v ++ [x]) :: rest else (k, v) :: appendGroup key x rest

/-- descendants_tree construction: iterate the descendants, skip the ones
rejected by the four guards, group the survivors under their
parent_selector. -/
def buildDescendantsTree (p : ListExtractorParams) (descendants : List DecoratedNode) :
    List (List Char × List DecoratedNode) :=
  descendants.foldl
    (fun tree d => if keepsDescendant p d then appendGroup d.parent_selector d tree else tree)
    []

theorem mem_appendGroup {α β : Type} [DecidableEq α] (key : α) (x : β) (tree : List (α × List β))
    (sel : α) (g : List β) (hmem : (sel, g) ∈ appendGroup key x tree) (y : β)
    (hy : y ∈ g) :
    (∃ g₀, (sel, g₀) ∈ tree ∧ y ∈ g₀) ∨ (y = x ∧ sel = key) := by
  induction tree with
  | nil =>
    simp only [appendGroup, List.mem_singleton, Prod.mk.injEq] at hmem
    obtain ⟨h1, h2⟩ := hmem
    subst h1; subst h2
    right
    exact ⟨List.mem_singleton.mp hy, rfl⟩
  | cons hd tl ih =>
    obtain ⟨k, v⟩ := hd
    simp only [appendGroup] at hmem
    by_cases hk : k = key
    · rw [if_pos hk] at hmem
      rcases List.mem_cons.mp hmem with heq | hmem
      · injection heq with h1 h2
        rw [h2] at hy
        rcases List.mem_append.mp hy with hyv | hyx
        · exact Or.inl ⟨v, h1 ▸ List.mem_cons_self _ _, hyv⟩
        · exact Or.inr ⟨List.mem_singleton.mp hyx, h1.trans hk⟩
      · exact Or.inl ⟨g, List.mem_cons_of_mem _ hmem, hy⟩
    · rw [if_neg hk] at hmem
      rcases List.mem_cons.mp hmem with heq | hmem
      · injection heq with h1 h2
        rw [h2] at hy
        exact Or.inl ⟨v, h1 ▸ List.mem_cons_self _ _, hy⟩
      · rcases ih hmem with ⟨g₀, hg₀, hyg₀⟩ | hdone
        · exact Or.inl ⟨g₀, List.mem_cons_of_mem _ hg₀, hyg₀⟩
        · exact Or.inr hdone

theorem buildDescendantsTree_invariant (p : ListExtractorParams)
    (descendants : List DecoratedNode) (tree₀ : List (List Char × List DecoratedNode))
    (hinv : ∀ sel g, (sel, g) ∈ tree₀ → ∀ d ∈ g,
      keepsDescendant p d = true ∧ d.parent_selector = sel)
    (sel : List Char) (g : List DecoratedNode)
    (hmem : (sel, g) ∈ descendants.foldl
      (fun tree d => if keepsDescendant p d then appendGroup d.parent_selector d tree else tree)
      tree₀)
    (d : DecoratedNode) (hd : d ∈ g) :
    keepsDescendant p d = true ∧ d.parent_selector = sel := by
  induction descendants generalizing tree₀ with
  | nil => exact hinv sel g hmem d hd
  | cons x rest ih =>
    simp only [List.foldl_cons] at hmem
    by_cases hx : keepsDescendant p x = true
    · rw [if_pos hx] at hmem
      refine ih (appendGroup x.parent_selector x tree₀) ?_ hmem
      intro sel₁ g₁ hmem₁ d₁ hd₁
      rcases mem_appendGroup _ _ _ _ _ hmem₁ _ hd₁ with ⟨g₀, hg₀, hd₀⟩ | ⟨hdx, hselx⟩
      · exact hinv sel₁ g₀ hg₀ d₁ hd₀
      · subst hdx
        exact ⟨hx, hselx.symm⟩
    · rw [if_neg hx] at hmem
      exact ih tree₀ hinv hmem

/-- C3: every node present in the candidate mapping built by the first loop of
_build_clusters satisfies the sibling-count condition, the text-length overlap
condition and the similarity condition, and is grouped under its own
parent_selector. -/
theorem candidateFilter_kept_nodes_satisfy_conditions (p : ListExtractorParams)
    (descendants : List DecoratedNode) (sel : List Char) (g : List DecoratedNode)
    (hmem : (sel, g) ∈ buildDescendantsTree p descendants)
    (d : DecoratedNode) (hd : d ∈ g) :
    p.min_number ≤ d.number_of_siblings + 1 ∧
    d.a_descendants_group_text_min_length ≤ p.max_length ∧
    p.min_length ≤ d.a_descendants_group_text_max_length ∧
    p.similarity_threshold ≤ d.similarity_with_siblings ∧
    d.parent_selector = sel := by
  have h := buildDescendantsTree_invariant p descendants [] (by simp) sel g hmem d hd
  obtain ⟨hkeep, hsel⟩ := h
  simp only [keepsDescendant, Bool.and_eq_true, Bool.not_eq_true',
    decide_eq_false_iff_not, not_lt] at hkeep
  exact ⟨hkeep.1.1.1, hkeep.1.1.2, hkeep.1.2, hkeep.2, hsel⟩

/-- A sample decorated node used for concrete evaluations. -/
def nodeA : DecoratedNode :=
  { number_of_siblings := 5
    parent_selector := ['d']
    a_descendants_group_text_min_length := 10
    a_descendants_group_text_max_length := 20
    similarity_with_siblings := 9/10
    a_descendants := [] }

theorem candidateFilter_kept_nodes_satisfy_conditions_witness :
    defaultParams.min_number ≤ nodeA.number_of_siblings + 1 ∧
    nodeA.a_descendants_group_text_min_length ≤ defaultParams.max_length ∧
    defaultParams.min_length ≤ nodeA.a_descendants_group_text_max_length ∧
    defaultParams.similarity_threshold ≤ nodeA.similarity_with_siblings ∧
    nodeA.parent_selector = ['d'] :=
  candidateFilter_kept_nodes_satisfy_conditions defaultParams [nodeA] ['d'] [nodeA]
    (by
      have hkeep : keepsDescendant defaultParams nodeA = true := by
        simp only [keepsDescendant, defaultParams, nodeA, Bool.and_eq_true, Bool.not_eq_true',
          decide_eq_false_iff_not, not_lt]
        norm_num
      simp only [buildDescendantsTree, List.foldl_cons, List.foldl_nil, hkeep, if_true]
      simp [appendGroup, nodeA])
    nodeA (by simp)

/-! ## Title probability model: _probability_of_title_with_length -/

/-- np.exp(-1 * ((length - avg_length) ** 2) / (2 * sigma ** 2)) /
(math.sqrt(2 * np.pi) * sigma) with sigma = 6. -/
noncomputable def probabilityOfTitleWithLength (p : ListExtractorParams) (length : ℝ) : ℝ :=
  let sigma : ℝ := 6
  Real.exp (-1 * (length - p.avg_length) ^ 2 / (2 * sigma ^ 2)) /
    (Real.sqrt (2 * π) * sigma)

/-- C8: the title-likelihood function attains its maximum at avg_length:
probability(avg_length) is at least probability(len) for every length. -/
theorem probabilityOfTitleWithLength_peak_at_avg (p : ListExtractorParams) (len : ℝ) :
    probabilityOfTitleWithLength p len ≤ probabilityOfTitleWithLength p p.avg_length := by
  unfold probabilityOfTitleWithLength
  have hD : (0:ℝ) < Real.sqrt (2 * π) * 6 := by
    have hpi : (0:ℝ) < 2 * π := by positivity
    have := Real.sqrt_pos.mpr hpi
    linarith
  rw [div_le_div_iff_of_pos_right hD]
  have h2 : -1 * (p.avg_length - p.avg_length) ^ 2 / (2 * (6:ℝ) ^ 2) = 0 := by
    rw [sub_self]
    norm_num
  rw [h2, Real.exp_zero, Real.exp_le_one_iff]
  apply div_nonpos_of_nonpos_of_nonneg
  · nlinarith [sq_nonneg (len - p.avg_length)]
  · norm_num

/-! ## Cluster score: _choose_best_cluster -/

/-- The per-cluster score expression
avg_similarity_with_siblings * np.log10(number_of_elements + 1). -/
noncomputable def clusterScoreFn (s n : ℝ) : ℝ := s * Real.logb 10 (n + 1)

/-- C9: the score is monotone non-decreasing in the element count for a fixed
average similarity in the unit interval, and monotone non-decreasing in the
average similarity for a fixed element count at least 1. -/
theorem clusterScoreFn_monotone (s n₁ n₂ s₁ s₂ n : ℝ) (hs0 : 0 ≤ s) (hs1 : s ≤ 1)
    (hn₁ : 0 ≤ n₁) (hn : n₁ ≤ n₂) (hss : s₁ ≤ s₂) (hn1 : 1 ≤ n) :
    clusterScoreFn s n₁ ≤ clusterScoreFn s n₂ ∧ clusterScoreFn s₁ n ≤ clusterScoreFn s₂ n := by
  constructor
  · apply mul_le_mul_of_nonneg_left _ hs0
    exact (Real.logb_le_logb (by norm_num) (by linarith) (by linarith)).mpr (by linarith)
  · apply mul_le_mul_of_nonneg_right hss
    exact Real.logb_nonneg (by norm_num) (by linarith)

theorem clusterScoreFn_monotone_witness :
    clusterScoreFn (1/2) 0 ≤ clusterScoreFn (1/2) 3 ∧ clusterScoreFn 0 2 ≤ clusterScoreFn 1 2 :=
  clusterScoreFn_monotone (1/2) 0 3 0 1 2 (by norm_num) (by norm_num) (by norm_num)
    (by norm_num) (by norm_num) (by norm_num)

/-! ## Selector pruning: the cut-tree loop of _build_clusters -/

/-- Python string comparison on selector strings: lexicographic by code point. -/
def lexLt : List Char → List Char → Bool
  | [], [] => false
  | [], _ :: _ => true
  | _ :: _, [] => false
  | a :: s, b :: t => if a < b then true else if b < a then false else lexLt s t

/-- The non-strict order used by sorted(): s may precede t when t is not
lexicographically smaller than s. -/
def lexLe (s t : List Char) : Prop := lexLt t s = false

instance : DecidableRel lexLe := fun s t => inferInstanceAs (Decidable (lexLt t s = false))

theorem lexLt_irrefl (s : List Char) : lexLt s s = false := by
  induction s with
  | nil => rfl
  | cons a t ih => simp [lexLt, ih]

theorem lexLt_cons_iff (a b : Char) (s t : List Char) :
    lexLt (a :: s) (b :: t) = true ↔ a < b ∨ (a = b ∧ lexLt s t = true) := by
  show (if a < b then true else if b < a then false else lexLt s t) = true ↔ _
  by_cases h1 : a < b
  · simp [h1]
  · by_cases h2 : b < a
    · simp only [if_neg h1, if_pos h2]
      constructor
      · intro h; cases h
      · rintro (h | ⟨h, _⟩)
        · exact absurd h h1
        · exact absurd (h ▸ h2) (lt_irrefl a)
    · have hab : a = b := le_antisymm (le_of_not_lt h2) (le_of_not_lt h1)
      simp [if_neg h1, if_neg h2, hab]

theorem lexLt_trans : ∀ s t u : List Char,
    lexLt s t = true → lexLt t u = true → lexLt s u = true := by
  intro s
  induction s with
  | nil =>
    intro t u h1 h2
    cases t with
    | nil => cases h1
    | cons b t2 =>
      cases u with
      | nil => cases h2
      | cons c u2 => rfl
  | cons a s2 ih =>
    intro t u h1 h2
    cases t with
    | nil => cases h1
    | cons b t2 =>
      cases u with
      | nil => cases h2
      | cons c u2 =>
        rw [lexLt_cons_iff] at h1 h2 ⊢
        rcases h1 with hab | ⟨hab, h1r⟩
        · rcases h2 with hbc | ⟨hbc, _⟩
          · exact Or.inl (lt_trans hab hbc)
          · exact Or.inl (hbc ▸ hab)
        · rcases h2 with hbc | ⟨hbc, h2r⟩
          · exact Or.inl (hab ▸ hbc)
          · exact Or.inr ⟨hab.trans hbc, ih t2 u2 h1r h2r⟩

theorem lexLt_eq_of_not_either : ∀ s t : List Char,
    lexLt s t = false → lexLt t s = false → s = t := by
  intro s
  induction s with
  | nil =>
    intro t h1 _
    cases t with
    | nil => rfl
    | cons b t2 => cases h1
  | cons a s2 ih =>
    intro t h1 h2
    cases t with
    | nil => cases h2
    | cons b t2 =>
      have hnab : ¬ a < b := by
        intro hab
        rw [(lexLt_cons_iff a b s2 t2).mpr (Or.inl hab)] at h1
        cases h1
      have hnba : ¬ b < a := by
        intro hba
        rw [(lexLt_cons_iff b a t2 s2).mpr (Or.inl hba)] at h2
        cases h2
      have hab : a = b := le_antisymm (le_of_not_lt hnba) (le_of_not_lt hnab)
      have h1r : lexLt s2 t2 = false := by
        cases hval : lexLt s2 t2 with
        | false => rfl
        | true =>
          rw [(lexLt_cons_iff a b s2 t2).mpr (Or.inr ⟨hab, hval⟩)] at h1
          cases h1
      have h2r : lexLt t2 s2 = false := by
        cases hval : lexLt t2 s2 with
        | false => rfl
        | true =>
          rw [(lexLt_cons_iff b a t2 s2).mpr (Or.inr ⟨hab.symm, hval⟩)] at h2
          cases h2
      rw [hab, ih t2 h1r h2r]

theorem lexLt_asymm (s t : List Char) (h : lexLt s t = true) : lexLt t s = false := by
  cases hval : lexLt t s with
  | false => rfl
  | true =>
    have := lexLt_trans s t s h hval
    rw [lexLt_irrefl] at this
    cases this

instance : IsTotal (List Char) lexLe :=
  ⟨fun s t => by
    unfold lexLe
    cases hval : lexLt t s with
    | false => exact Or.inl rfl
    | true => exact Or.inr (lexLt_asymm t s hval)⟩

instance : IsTrans (List Char) lexLe :=
  ⟨fun s t u h1 h2 => by
    unfold lexLe at h1 h2 ⊢
    cases hval : lexLt u s with
    | false => rfl
    | true =>
      cases hst : lexLt s t with
      | true =>
        have := lexLt_trans u s t hval hst
        rw [this] at h2
        cases h2
      | false =>
        have hseq : s = t := lexLt_eq_of_not_either s t hst h1
        rw [hseq] at hval
        rw [hval] at h2
        exact Bool.noConfusion h2⟩

theorem prefix_lexLt (s : List Char) : ∀ t : List Char, s <+: t → s ≠ t → lexLt s t = true := by
  induction s with
  | nil =>
    intro t _ hne
    cases t with
    | nil => exact absurd rfl hne
    | cons b t2 => rfl
  | cons a s2 ih =>
    intro t hp hne
    cases t with
    | nil => exact absurd (List.prefix_nil.mp hp) (by simp)
    | cons b t2 =>
      obtain ⟨hab, hp2⟩ := List.cons_prefix_cons.mp hp
      subst hab
      have hne2 : s2 ≠ t2 := fun h => hne (by rw [h])
      rw [lexLt_cons_iff]
      exact Or.inr ⟨rfl, ih t2 hp2 hne2⟩

theorem lexLt_between (s : List Char) : ∀ (u t : List Char), s <+: t → lexLt s u = true →
    (u = t ∨ lexLt u t = true) → s <+: u := by
  induction s with
  | nil => intro u t _ _ _; exact List.nil_prefix
  | cons a s2 ih =>
    intro u t hp hsu hut
    rcases hut with rfl | hut
    · exact hp
    cases t with
    | nil => exact absurd (List.prefix_nil.mp hp) (by simp)
    | cons b t2 =>
      obtain ⟨hab, hp2⟩ := List.cons_prefix_cons.mp hp
      subst hab
      cases u with
      | nil => cases hsu
      | cons c u2 =>
        rw [lexLt_cons_iff] at hsu hut
        rcases hsu with hac | ⟨hac, hsu2⟩
        · rcases hut with hca | ⟨hca, _⟩
          · exact absurd hca (lt_asymm hac)
          · exact absurd (hca ▸ hac) (lt_irrefl a)
        · rcases hut with hca | ⟨hca, hut2⟩
          · exact absurd (hac ▸ hca) (lt_irrefl c)
          · subst hac
            exact List.cons_prefix_cons.mpr ⟨rfl, ih u2 t2 hp2 hsu2 (Or.inr hut2)⟩

/-- The truthiness guard of the deletion branch:
last_selector and selector and last_selector.startswith(selector). -/
def cutCond (last : Option (List Char)) (sel : List Char) : Bool :=
  match last with
  | none => false
  | some l => !l.isEmpty && !sel.isEmpty && sel.isPrefixOf l

/-- The cut-tree loop of _build_clusters: iterate the sorted selectors in
reverse, carrying the previously seen selector, and collect the selectors
deleted from descendants_tree. -/
def cutLoop (last : Option (List Char)) : List (List Char) → List (List Char)
  | [] => []
  | sel :: rest => (if cutCond last sel then [sel] else []) ++ cutLoop (some sel) rest

/-- sorted(list(descendants_tree.keys())) modelled with insertion sort under
the lexicographic order. -/
def sortedSelectors (keys : List (List Char)) : List (List Char) :=
  List.insertionSort lexLe keys

/-- The selectors removed from descendants_tree by the cut-tree loop. -/
def deletedSelectors (keys : List (List Char)) : List (List Char) :=
  cutLoop none (sortedSelectors keys).reverse

/-- The keys remaining in descendants_tree after the cut-tree loop, in their
original insertion order. -/
def prunedSelectors (keys : List (List Char)) : List (List Char) :=
  keys.filter (fun k => !(decide (k ∈ deletedSelectors keys)))

theorem cutCond_some_elim (l sel : List Char) (h : cutCond (some l) sel = true) :
    l ≠ [] ∧ sel ≠ [] ∧ sel <+: l := by
  simp only [cutCond, Bool.and_eq_true, Bool.not_eq_true'] at h
  obtain ⟨⟨hl, hs⟩, hpre⟩ := h
  refine ⟨?_, ?_, List.isPrefixOf_iff_prefix.mp hpre⟩
  · cases l with
    | nil => exact Bool.noConfusion hl
    | cons x xs => simp
  · cases sel with
    | nil => exact Bool.noConfusion hs
    | cons x xs => simp

theorem cutCond_some_intro (l sel : List Char) (hl : l ≠ []) (hs : sel ≠ [])
    (hpre : sel <+: l) : cutCond (some l) sel = true := by
  simp only [cutCond, Bool.and_eq_true, Bool.not_eq_true']
  refine ⟨⟨?_, ?_⟩, List.isPrefixOf_iff_prefix.mpr hpre⟩
  · cases l with
    | nil => exact absurd rfl hl
    | cons x xs => rfl
  · cases sel with
    | nil => exact absurd rfl hs
    | cons x xs => rfl

theorem mem_cutLoop_of_adjacent (u sel : List Char) (hc : cutCond (some u) sel = true) :
    ∀ (xs : List (List Char)) (last : Option (List Char)) (ys : List (List Char)),
      sel ∈ cutLoop last (xs ++ u :: sel :: ys) := by
  intro xs
  induction xs with
  | nil =>
    intro last ys
    simp only [List.nil_append, cutLoop, hc, if_true]
    exact List.mem_append_right _ (List.mem_append_left _ (List.mem_singleton.mpr rfl))
  | cons x xs ih =>
    intro last ys
    simp only [List.cons_append, cutLoop]
    exact List.mem_append_right _ (ih (some x) ys)

theorem cutLoop_sound : ∀ (R : List (List Char)) (last : Option (List Char)),
    (∀ l, last = some l → ∀ x ∈ R, lexLt x l = true) →
    R.Pairwise (fun a b => lexLt b a = true) →
    ∀ d ∈ cutLoop last R, ∃ l, (last = some l ∨ l ∈ R) ∧ d ≠ l ∧ d <+: l := by
  intro R
  induction R with
  | nil =>
    intro last _ _ d hd
    simp [cutLoop] at hd
  | cons sel rest ih =>
    intro last hlast hpw d hd
    simp only [cutLoop, List.mem_append] at hd
    rcases hd with hdel | hd
    · by_cases hc : cutCond last sel = true
      · rw [if_pos hc] at hdel
        have hds : d = sel := List.mem_singleton.mp hdel
        subst hds
        cases last with
        | none => exact Bool.noConfusion hc
        | some l =>
          obtain ⟨_, _, hpre⟩ := cutCond_some_elim l d hc
          have hlt : lexLt d l = true := hlast l rfl d (List.mem_cons_self _ _)
          have hne : d ≠ l := by
            intro h
            rw [h, lexLt_irrefl] at hlt
            exact Bool.noConfusion hlt
          exact ⟨l, Or.inl rfl, hne, hpre⟩
      · rw [if_neg hc] at hdel
        cases hdel
    · have hpwrest := (List.pairwise_cons.mp hpw).2
      have hhead := (List.pairwise_cons.mp hpw).1
      have hlast2 : ∀ l, (some sel : Option (List Char)) = some l →
          ∀ x ∈ rest, lexLt x l = true := by
        intro l hsl x hx
        injection hsl with hsl
        exact hsl ▸ hhead x hx
      obtain ⟨l, hl, hne, hpre⟩ := ih (some sel) hlast2 hpwrest d hd
      rcases hl with hsel | hl
      · injection hsel with hsel
        refine ⟨l, Or.inr ?_, hne, hpre⟩
        rw [← hsel]
        exact List.mem_cons_self _ _
      · exact ⟨l, Or.inr (List.mem_cons_of_mem _ hl), hne, hpre⟩

theorem sorted_split (L : List (List Char)) (hpw : L.Pairwise (fun a b => lexLt a b = true)) :
    ∀ s t : List Char, s ∈ L → t ∈ L → lexLt s t = true →
      ∃ A u B, L = A ++ s :: u :: B ∧ lexLt s u = true ∧ (u = t ∨ lexLt u t = true) := by
  induction L with
  | nil => intro s t hs _ _; cases hs
  | cons x rest ih =>
    intro s t hs ht hst
    have hhead := (List.pairwise_cons.mp hpw).1
    have hpwrest := (List.pairwise_cons.mp hpw).2
    rcases List.mem_cons.mp hs with rfl | hs2
    · have htr : t ∈ rest := by
        rcases List.mem_cons.mp ht with rfl | h
        · rw [lexLt_irrefl] at hst
          exact Bool.noConfusion hst
        · exact h
      cases rest with
      | nil => cases htr
      | cons r rest2 =>
        refine ⟨[], r, rest2, rfl, hhead r (List.mem_cons_self _ _), ?_⟩
        rcases List.mem_cons.mp htr with rfl | h
        · exact Or.inl rfl
        · exact Or.inr ((List.pairwise_cons.mp hpwrest).1 t h)
    · have htr : t ∈ rest := by
        rcases List.mem_cons.mp ht with rfl | h
        · have hxs := hhead s hs2
          have := lexLt_trans s t s hst hxs
          rw [lexLt_irrefl] at this
          exact Bool.noConfusion this
        · exact h
      obtain ⟨A, u, B, hsplit, h1, h2⟩ := ih hpwrest s t hs2 htr hst
      exact ⟨x :: A, u, B, by rw [List.cons_append, hsplit], h1, h2⟩

/-- C4 (amended): for a duplicate-free key set, after the cut-tree loop no two
retained selectors with the inner one nonempty stand in a strict string-prefix
relationship, and every deleted selector was a strict prefix of another
selector of the mapping (the shallower entry is the one dropped). -/
theorem prunedSelectors_no_strict_ancestor (keys : List (List Char)) (hnd : keys.Nodup) :
    (∀ s ∈ prunedSelectors keys, ∀ t ∈ prunedSelectors keys,
      s ≠ [] → s ≠ t → ¬ s <+: t) ∧
    (∀ d ∈ deletedSelectors keys, ∃ u ∈ keys, d ≠ u ∧ d <+: u) := by
  have hperm : (sortedSelectors keys).Perm keys := List.perm_insertionSort lexLe keys
  have hsorted : (sortedSelectors keys).Sorted lexLe := List.sorted_insertionSort lexLe keys
  have hndL : (sortedSelectors keys).Nodup := hperm.symm.nodup hnd
  have hpwlt : (sortedSelectors keys).Pairwise (fun a b => lexLt a b = true) := by
    have h12 := List.Pairwise.and hsorted hndL
    refine h12.imp ?_
    rintro a b ⟨hle, hne⟩
    cases hval : lexLt a b with
    | true => rfl
    | false => exact absurd (lexLt_eq_of_not_either a b hval hle) hne
  have hpwrev : (sortedSelectors keys).reverse.Pairwise (fun a b => lexLt b a = true) :=
    List.pairwise_reverse.mpr hpwlt
  constructor
  · intro s hs t ht hsne hne hpre
    have hsk := List.mem_filter.mp hs
    have hsdel : ¬ s ∈ deletedSelectors keys := by
      have := hsk.2
      simp only [Bool.not_eq_true', decide_eq_false_iff_not] at this
      exact this
    have htk : t ∈ keys := (List.mem_filter.mp ht).1
    have hsL : s ∈ sortedSelectors keys := hperm.mem_iff.mpr hsk.1
    have htL : t ∈ sortedSelectors keys := hperm.mem_iff.mpr htk
    have hlt : lexLt s t = true := prefix_lexLt s t hpre hne
    obtain ⟨A, u, B, hsplit, hsu, hut⟩ := sorted_split _ hpwlt s t hsL htL hlt
    have hpre2 : s <+: u := lexLt_between s u t hpre hsu hut
    have hune : u ≠ [] := by
      intro h
      obtain ⟨r, hr⟩ := hpre2
      rw [h] at hr
      exact hsne (List.append_eq_nil.mp hr).1
    have hc : cutCond (some u) s = true := cutCond_some_intro u s hune hsne hpre2
    have hrev : (sortedSelectors keys).reverse = B.reverse ++ u :: s :: A.reverse := by
      rw [hsplit]
      simp [List.reverse_append, List.reverse_cons, List.append_assoc]
    have hmem : s ∈ deletedSelectors keys := by
      unfold deletedSelectors
      rw [hrev]
      exact mem_cutLoop_of_adjacent u s hc B.reverse none A.reverse
    exact hsdel hmem
  · intro d hd
    obtain ⟨l, hl, hne, hpre⟩ :=
      cutLoop_sound ((sortedSelectors keys).reverse) none
        (by intro l h; cases h) hpwrev d hd
    rcases hl with h | hl
    · cases h
    · exact ⟨l, hperm.mem_iff.mp (List.mem_reverse.mp hl), hne, hpre⟩

/-- Concrete selector key list for the witness of the pruning theorem. -/
def keysB : List (List Char) := [['a'], ['a', 'b'], ['b']]

theorem prunedSelectors_no_strict_ancestor_witness :
    (∀ s ∈ prunedSelectors keysB, ∀ t ∈ prunedSelectors keysB,
      s ≠ [] → s ≠ t → ¬ s <+: t) ∧
    (∀ d ∈ deletedSelectors keysB, ∃ u ∈ keysB, d ≠ u ∧ d <+: u) :=
  prunedSelectors_no_strict_ancestor keysB (by decide)

/-- C4 counterexample: with the empty selector among the keys, the cut-tree
loop retains both the empty selector and a selector it is a strict prefix of,
because the truthiness guard skips the empty string. -/
theorem prunedSelectors_empty_selector_counterexample :
    prunedSelectors [[], ['a']] = [[], ['a']] ∧
    ([] : List Char) <+: ['a'] ∧ ([] : List Char) ≠ ['a'] :=
  ⟨by decide, ⟨['a'], rfl⟩, by decide⟩

/-! ## Best-cluster selection: _choose_best_cluster -/

/-- The score of one cluster: np.mean of similarity_with_siblings over the
members times np.log10(number of members + 1). -/
noncomputable def clusterScore (cluster : List DecoratedNode) : ℝ :=
  clusterScoreFn
    (((cluster.map (fun e => e.similarity_with_siblings)).sum / (cluster.length : ℚ) : ℚ) : ℝ)
    (cluster.length : ℝ)

/-- The loop of _choose_best_cluster, tracking clusters_score_arg_max and
clusters_score_max and updating them on a strictly greater score. -/
noncomputable def chooseLoop (argMax : Nat) (scoreMax : ℝ) :
    List (Nat × List DecoratedNode) → Nat × ℝ
  | [] => (argMax, scoreMax)
  | (cid, cl) :: rest =>
    if clusterScore cl > scoreMax then chooseLoop cid (clusterScore cl) rest
    else chooseLoop argMax scoreMax rest

/-- Dictionary lookup clusters[cluster_id]. -/
def lookupCluster (cid : Nat) : List (Nat × List DecoratedNode) → Option (List DecoratedNode)
  | [] => none
  | (k, cl) :: rest => if k = cid then some cl else lookupCluster cid rest

/-- The function _choose_best_cluster: run the loop from the sentinel state
(arg 0, score -1), then look the winning id up in the mapping. -/
noncomputable def chooseBestCluster (clusters : List (Nat × List DecoratedNode)) :
    Option (List DecoratedNode) :=
  lookupCluster (chooseLoop 0 (-1) clusters).1 clusters

theorem chooseLoop_spec (l : List (Nat × List DecoratedNode)) :
    ∀ (aid : Nat) (amax : ℝ),
      (chooseLoop aid amax l = (aid, amax) ∧ ∀ p ∈ l, clusterScore p.2 ≤ amax) ∨
      (∃ i : Fin l.length,
        chooseLoop aid amax l = ((l.get i).1, clusterScore (l.get i).2) ∧
        amax < clusterScore (l.get i).2 ∧
        (∀ j : Fin l.length, clusterScore (l.get j).2 ≤ clusterScore (l.get i).2) ∧
        (∀ j : Fin l.length, (j : ℕ) < (i : ℕ) →
          clusterScore (l.get j).2 < clusterScore (l.get i).2)) := by
  induction l with
  | nil =>
    intro aid amax
    exact Or.inl ⟨rfl, by simp⟩
  | cons hd rest ih =>
    intro aid amax
    obtain ⟨cid, cl⟩ := hd
    by_cases hgt : clusterScore cl > amax
    · have hstep : chooseLoop aid amax ((cid, cl) :: rest) = chooseLoop cid (clusterScore cl) rest := by
        simp only [chooseLoop, if_pos hgt]
      rcases ih cid (clusterScore cl) with ⟨heq, hbound⟩ | ⟨i, heq, hlt, hub, hfirst⟩
      · right
        refine ⟨⟨0, by simp⟩, by rw [hstep, heq]; rfl, hgt, ?_, ?_⟩
        · intro j
          refine Fin.cases ?_ ?_ j
          · exact le_refl _
          · intro k
            simpa using hbound (rest.get k) (List.get_mem rest k.1 k.2)
        · intro j
          refine Fin.cases ?_ ?_ j
          · intro hj
            exact absurd hj (by simp)
          · intro k hk
            exact absurd hk (by simp)
      · right
        refine ⟨i.succ, ?_, lt_trans hgt hlt, ?_, ?_⟩
        · rw [hstep, heq]
          simp
        · intro j
          refine Fin.cases ?_ ?_ j
          · simpa using le_of_lt hlt
          · intro k
            simpa using hub k
        · intro j
          refine Fin.cases ?_ ?_ j
          · intro hj
            simpa using hlt
          · intro k hk
            have hk2 : (k : ℕ) < (i : ℕ) := by
              simpa using Nat.lt_of_succ_lt_succ (by simpa using hk)
            simpa using hfirst k hk2
    · have hstep : chooseLoop aid amax ((cid, cl) :: rest) = chooseLoop aid amax rest := by
        simp only [chooseLoop, if_neg hgt]
      push_neg at hgt
      rcases ih aid amax with ⟨heq, hbound⟩ | ⟨i, heq, hlt, hub, hfirst⟩
      · left
        refine ⟨hstep.trans heq, ?_⟩
        intro p hp
        rcases List.mem_cons.mp hp with rfl | hp
        · exact hgt
        · exact hbound p hp
      · right
        refine ⟨i.succ, ?_, hlt, ?_, ?_⟩
        · rw [hstep, heq]
          simp
        · intro j
          refine Fin.cases ?_ ?_ j
          · simpa using le_of_lt (lt_of_le_of_lt hgt hlt)
          · intro k
            simpa using hub k
        · intro j
          refine Fin.cases ?_ ?_ j
          · intro hj
            simpa using lt_of_le_of_lt hgt hlt
          · intro k hk
            have hk2 : (k : ℕ) < (i : ℕ) := by
              simpa using Nat.lt_of_succ_lt_succ (by simpa using hk)
            simpa using hfirst k hk2

theorem clusterScore_nonneg (cl : List DecoratedNode)
    (hsim : ∀ d ∈ cl, 0 ≤ d.similarity_with_siblings) : 0 ≤ clusterScore cl := by
  unfold clusterScore clusterScoreFn
  apply mul_nonneg
  · rw [Rat.cast_nonneg]
    apply div_nonneg
    · apply List.sum_nonneg
      intro x hx
      obtain ⟨d, hd, rfl⟩ := List.mem_map.mp hx
      exact hsim d hd
    · exact_mod_cast Nat.zero_le _
  · apply Real.logb_nonneg (by norm_num)
    have h := Nat.cast_nonneg (α := ℝ) cl.length
    linarith

theorem lookupCluster_get (l : List (Nat × List DecoratedNode))
    (hids : (l.map Prod.fst).Nodup) (i : Fin l.length) :
    lookupCluster (l.get i).1 l = some (l.get i).2 := by
  induction l with
  | nil => exact i.elim0
  | cons hd rest ih =>
    have hids2 : hd.1 ∉ rest.map Prod.fst ∧ (rest.map Prod.fst).Nodup := by
      rw [List.map_cons] at hids
      exact List.nodup_cons.mp hids
    refine Fin.cases ?_ ?_ i
    · simp [lookupCluster]
    · intro k
      have hne : hd.1 ≠ (rest.get k).1 := by
        intro heq
        apply hids2.1
        rw [heq]
        exact List.mem_map.mpr ⟨rest.get k, List.get_mem rest k.1 k.2, rfl⟩
      show (if hd.1 = (rest.get k).1 then some hd.2 else lookupCluster (rest.get k).1 rest) = _
      rw [if_neg hne]
      exact ih hids2.2 k

/-- C5: for a nonempty cluster mapping with duplicate-free cluster ids,
nonempty member clusters and nonnegative similarities, _choose_best_cluster
returns the cluster whose score avg_similarity * log10(n + 1) is maximal,
tied in favour of the first maximum in iteration order. -/
theorem chooseBestCluster_first_max (clusters : List (Nat × List DecoratedNode))
    (hne : clusters ≠ [])
    (hids : (clusters.map Prod.fst).Nodup)
    (hclne : ∀ p ∈ clusters, p.2 ≠ [])
    (hsim : ∀ p ∈ clusters, ∀ d ∈ p.2, 0 ≤ d.similarity_with_siblings) :
    ∃ i : Fin clusters.length,
      chooseBestCluster clusters = some (clusters.get i).2 ∧
      (∀ j : Fin clusters.length,
        clusterScore (clusters.get j).2 ≤ clusterScore (clusters.get i).2) ∧
      (∀ j : Fin clusters.length, (j : ℕ) < (i : ℕ) →
        clusterScore (clusters.get j).2 < clusterScore (clusters.get i).2) := by
  have hcl0 : clusters ≠ [] := hne
  rcases chooseLoop_spec clusters 0 (-1) with ⟨heq, hbound⟩ | ⟨i, heq, hlt, hub, hfirst⟩
  · exfalso
    obtain ⟨c, rest, rfl⟩ : ∃ c rest, clusters = c :: rest := by
      cases clusters with
      | nil => exact absurd rfl hcl0
      | cons c rest => exact ⟨c, rest, rfl⟩
    have h0 : 0 ≤ clusterScore c.2 :=
      clusterScore_nonneg c.2 (hsim c (List.mem_cons_self _ _))
    have h1 : clusterScore c.2 ≤ -1 := hbound c (List.mem_cons_self _ _)
    linarith
  · refine ⟨i, ?_, hub, hfirst⟩
    unfold chooseBestCluster
    rw [heq]
    exact lookupCluster_get clusters hids i

theorem chooseBestCluster_first_max_witness :
    ∃ i : Fin ([((0:Nat), [nodeA])].length),
      chooseBestCluster [((0:Nat), [nodeA])] = some (([((0:Nat), [nodeA])]).get i).2 ∧
      (∀ j : Fin ([((0:Nat), [nodeA])].length),
        clusterScore (([((0:Nat), [nodeA])]).get j).2 ≤
          clusterScore (([((0:Nat), [nodeA])]).get i).2) ∧
      (∀ j : Fin ([((0:Nat), [nodeA])].length), (j : ℕ) < (i : ℕ) →
        clusterScore (([((0:Nat), [nodeA])]).get j).2 <
          clusterScore (([((0:Nat), [nodeA])]).get i).2) :=
  chooseBestCluster_first_max [((0:Nat), [nodeA])] (by simp) (by simp)
    (by simp)
    (by
      intro p hp d hd
      rw [List.mem_singleton.mp hp] at hd
      rw [List.mem_singleton.mp hd]
      show (0:ℚ) ≤ nodeA.similarity_with_siblings
      norm_num [nodeA])

/-- C1: on the empty cluster mapping the lookup clusters[0] performed by
_choose_best_cluster fails (a KeyError in the reference code): no cluster is
returned, rather than the explicit empty-result condition the spec requires. -/
theorem chooseBestCluster_empty_mapping_fails : chooseBestCluster [] = none := rfl

/-! ## Title extraction: _extract_from_cluster -/

/-- First loop of _extract_from_cluster: collect the per-anchor title
probabilities computed from the anchor text length, grouped by tag path. -/
noncomputable def probabilitiesOfTitle (p : ListExtractorParams)
    (cluster : List DecoratedNode) : List (List Char × List ℝ) :=
  cluster.foldl
    (fun table e =>
      e.a_descendants.foldl
        (fun t a => appendGroup a.path (probabilityOfTitleWithLength p (a.text.length : ℝ)) t)
        table)
    []

/-- probabilities_of_title_avg: np.mean of each path group. -/
noncomputable def probabilitiesOfTitleAvg (p : ListExtractorParams)
    (cluster : List DecoratedNode) : List (List Char × ℝ) :=
  (probabilitiesOfTitle p cluster).map (fun g => (g.1, g.2.sum / (g.2.length : ℝ)))

/-- Python max(items, key=itemgetter(1)): the first maximal item wins. -/
noncomputable def maxByScore (best : List Char × ℝ) : List (List Char × ℝ) → List Char × ℝ
  | [] => best
  | x :: rest => maxByScore (if x.2 > best.2 then x else best) rest

/-- One iteration of the extraction loop body: skip anchors off the best path,
skip missing or empty hrefs, normalize protocol-relative urls, append the
record. -/
def extractStep (best : List Char) (acc : List ExtractionRecord) (a : AnchorDescendant) :
    List ExtractionRecord :=
  if a.path ≠ best then acc
  else
    match a.href with
    | none => acc
    | some url =>
      if url = [] then acc
      else acc ++ [{ title := a.text,
                     url := if ("//".data).isPrefixOf url then ("http:".data) ++ url else url }]

/-- The second (extraction) loop of _extract_from_cluster. -/
def extractRecords (best : List Char) (cluster : List DecoratedNode) : List ExtractionRecord :=
  cluster.foldl (fun acc e => e.a_descendants.foldl (extractStep best) acc) []

/-- The function _extract_from_cluster: pick the path of maximal average probability -
max() over an empty dict raises ValueError, modelled as none - then run the
extraction loop with that best path. -/
noncomputable def extractFromCluster (p : ListExtractorParams)
    (cluster : List DecoratedNode) : Option (List ExtractionRecord) :=
  match probabilitiesOfTitleAvg p cluster with
  | [] => none
  | x :: rest => some (extractRecords (maxByScore x rest).1 cluster)

/-- The per-anchor outcome of the extraction loop body, as an Option. -/
def recordOfAnchor (best : List Char) (a : AnchorDescendant) : Option ExtractionRecord :=
  if a.path ≠ best then none
  else
    match a.href with
    | none => none
    | some url =>
      if url = [] then none
      else some { title := a.text,
                  url := if ("//".data).isPrefixOf url then ("http:".data) ++ url else url }

theorem extractStep_eq (best : List Char) (acc : List ExtractionRecord) (a : AnchorDescendant) :
    extractStep best acc a = acc ++ (recordOfAnchor best a).toList := by
  unfold extractStep recordOfAnchor
  by_cases h1 : a.path ≠ best
  · simp [h1]
  · cases h2 : a.href with
    | none => simp [h1, h2]
    | some url =>
      by_cases h3 : url = []
      · simp [h1, h2, h3]
      · simp [h1, h2, h3]

theorem foldl_extractStep (best : List Char) (anchors : List AnchorDescendant) :
    ∀ acc : List ExtractionRecord,
      anchors.foldl (extractStep best) acc = acc ++ anchors.filterMap (recordOfAnchor best) := by
  induction anchors with
  | nil => intro acc; simp
  | cons a rest ih =>
    intro acc
    rw [List.foldl_cons, extractStep_eq, ih]
    cases h : recordOfAnchor best a with
    | none => simp [List.filterMap_cons, h]
    | some r => simp [List.filterMap_cons, h]

theorem extractRecords_eq (best : List Char) (cluster : List DecoratedNode) :
    extractRecords best cluster =
      (cluster.flatMap (fun e => e.a_descendants)).filterMap (recordOfAnchor best) := by
  unfold extractRecords
  suffices h : ∀ acc : List ExtractionRecord,
      cluster.foldl (fun acc e => e.a_descendants.foldl (extractStep best) acc) acc =
        acc ++ (cluster.flatMap (fun e => e.a_descendants)).filterMap (recordOfAnchor best) by
    simpa using h []
  induction cluster with
  | nil => intro acc; simp
  | cons e rest ih =>
    intro acc
    rw [List.foldl_cons, foldl_extractStep, ih]
    simp [List.filterMap_append]

theorem http_prepend_ne_empty (u : List Char) : (("http:".data) ++ u) ≠ [] := by
  intro h
  have hlen := congrArg List.length h
  rw [List.length_append] at hlen
  simp at hlen

/-- C6: every record emitted by the extraction loop has a nonempty url, taken
from an anchor on the best path whose href is present and nonempty; a href
starting with // gets http: prepended, any other nonempty href is emitted
unchanged. -/
theorem extractRecords_url_normalized (best : List Char) (cluster : List DecoratedNode)
    (r : ExtractionRecord) (hr : r ∈ extractRecords best cluster) :
    r.url ≠ [] ∧
    ∃ e ∈ cluster, ∃ a ∈ e.a_descendants, a.path = best ∧
      ∃ u, a.href = some u ∧ u ≠ [] ∧ r.title = a.text ∧
        r.url = (if ("//".data).isPrefixOf u then ("http:".data) ++ u else u) := by
  rw [extractRecords_eq] at hr
  obtain ⟨a, ha, hrec⟩ := List.mem_filterMap.mp hr
  obtain ⟨e, he, hae⟩ := List.mem_flatMap.mp ha
  unfold recordOfAnchor at hrec
  by_cases h1 : a.path ≠ best
  · rw [if_pos h1] at hrec
    exact Option.noConfusion hrec
  · rw [if_neg h1] at hrec
    push_neg at h1
    cases h2 : a.href with
    | none =>
      rw [h2] at hrec
      exact Option.noConfusion hrec
    | some u =>
      rw [h2] at hrec
      dsimp only at hrec
      by_cases h3 : u = []
      · rw [if_pos h3] at hrec
        exact Option.noConfusion hrec
      · rw [if_neg h3] at hrec
        have hrec2 := Option.some.inj hrec
        refine ⟨?_, e, he, a, hae, h1, u, h2, h3, ?_, ?_⟩
        · rw [← hrec2]
          by_cases h4 : ("//".data).isPrefixOf u = true
          · simp only [h4, if_true]
            exact http_prepend_ne_empty u
          · simpa [h4] using h3
        · rw [← hrec2]
        · rw [← hrec2]

/-- Python truthiness of attrib.get: href present and nonempty. -/
def hasHref (a : AnchorDescendant) : Bool :=
  match a.href with
  | none => false
  | some u => !u.isEmpty

theorem recordOfAnchor_none_of_malformed (best : List Char) (a : AnchorDescendant)
    (h : hasHref a = false) : recordOfAnchor best a = none := by
  unfold recordOfAnchor
  by_cases h1 : a.path ≠ best
  · simp [h1]
  · cases h2 : a.href with
    | none => simp [h1, h2]
    | some u =>
      unfold hasHref at h
      rw [h2] at h
      simp only [Bool.not_eq_false'] at h
      have hu : u = [] := by
        cases u with
        | nil => rfl
        | cons x xs => exact Bool.noConfusion h
      simp [h1, h2, hu]

theorem filterMap_filter_hasHref (best : List Char) (l : List AnchorDescendant) :
    (l.filter hasHref).filterMap (recordOfAnchor best) = l.filterMap (recordOfAnchor best) := by
  induction l with
  | nil => rfl
  | cons a rest ih =>
    by_cases h : hasHref a = true
    · simp [List.filter_cons, h, List.filterMap_cons, ih]
    · have h0 : hasHref a = false := Bool.not_eq_true _ ▸ Bool.of_not_eq_true h
      simp [List.filter_cons, h0, List.filterMap_cons,
        recordOfAnchor_none_of_malformed best a h0, ih]

/-- C7: the extraction loop emits exactly one record per anchor matching the
best path with a present nonempty href, in order, and removing every anchor
without a usable href leaves the output unchanged: a malformed anchor is
skipped locally without affecting the other records and without any failure. -/
theorem extractRecords_skips_malformed (best : List Char) (cluster : List DecoratedNode) :
    extractRecords best cluster =
      (cluster.flatMap (fun e => e.a_descendants)).filterMap (recordOfAnchor best) ∧
    extractRecords best
        (cluster.map (fun e => { e with a_descendants := e.a_descendants.filter hasHref })) =
      extractRecords best cluster := by
  refine ⟨extractRecords_eq best cluster, ?_⟩
  rw [extractRecords_eq, extractRecords_eq]
  induction cluster with
  | nil => rfl
  | cons e rest ih =>
    simp only [List.map_cons, List.flatMap_cons, List.filterMap_append]
    rw [filterMap_filter_hasHref, ih]

/-- C2 (amended): when no member of the cluster has any anchor descendant, the
probabilities dict stays empty and max() has no argument: _extract_from_cluster
fails (ValueError in the reference code, modelled as none) instead of
returning an empty record list. -/
theorem extractFromCluster_none_of_no_anchors (p : ListExtractorParams)
    (cluster : List DecoratedNode) (h : ∀ e ∈ cluster, e.a_descendants = []) :
    extractFromCluster p cluster = none := by
  have htab : ∀ (cl : List DecoratedNode), (∀ e ∈ cl, e.a_descendants = []) →
      ∀ table : List (List Char × List ℝ),
        cl.foldl (fun table e => e.a_descendants.foldl
          (fun t a => appendGroup a.path (probabilityOfTitleWithLength p (a.text.length : ℝ)) t)
          table) table = table := by
    intro cl
    induction cl with
    | nil => intro _ table; rfl
    | cons e rest ih =>
      intro hcl table
      rw [List.foldl_cons, hcl e (List.mem_cons_self _ _), List.foldl_nil]
      exact ih (fun e2 he2 => hcl e2 (List.mem_cons_of_mem _ he2)) table
  unfold extractFromCluster probabilitiesOfTitleAvg probabilitiesOfTitle
  rw [htab cluster h []]
  rfl

theorem extractFromCluster_none_of_no_anchors_witness :
    extractFromCluster defaultParams [nodeA, nodeA] = none :=
  extractFromCluster_none_of_no_anchors defaultParams [nodeA, nodeA]
    (by
      intro e he
      rcases List.mem_cons.mp he with rfl | he2
      · rfl
      · rw [List.mem_singleton.mp he2]
        rfl)

/-- C2 counterexample: on a nonempty cluster with no anchor descendants the
code does not yield an empty extraction result; the max() call fails. -/
theorem extractFromCluster_no_anchors_counterexample :
    extractFromCluster defaultParams [nodeA] = none ∧
    extractFromCluster defaultParams [nodeA] ≠ some [] := by
  refine ⟨rfl, ?_⟩
  intro hcontra
  rw [show extractFromCluster defaultParams [nodeA] = none from rfl] at hcontra
  exact Option.noConfusion hcontra

/-- Reading one group out of the association table (empty when absent). -/
def lookupGroup {β : Type} (key : List Char) : List (List Char × List β) → List β
  | [] => []
  | (k, v) :: rest => if k = key then v else lookupGroup key rest

theorem lookupGroup_appendGroup {β : Type} (q : List Char) (x : β)
    (t : List (List Char × List β)) (pth : List Char) :
    lookupGroup pth (appendGroup q x t) =
      if pth = q then lookupGroup pth t ++ [x] else lookupGroup pth t := by
  induction t with
  | nil =>
    by_cases h : pth = q
    · subst h
      simp [appendGroup, lookupGroup]
    · have h2 : ¬q = pth := fun hh => h hh.symm
      simp [appendGroup, lookupGroup, h, h2]
  | cons hd rest ih =>
    obtain ⟨k, v⟩ := hd
    simp only [appendGroup]
    by_cases hk : k = q
    · rw [if_pos hk]
      subst hk
      by_cases hp : k = pth
      · subst hp
        simp [lookupGroup]
      · have h2 : ¬pth = k := fun hh => hp hh.symm
        simp [lookupGroup, hp, h2]
    · rw [if_neg hk]
      by_cases hp : k = pth
      · subst hp
        simp [lookupGroup, hk]
      · simp only [lookupGroup, if_neg hp]
        exact ih

theorem lookupGroup_foldl_anchors (p : ListExtractorParams) (pth : List Char) :
    ∀ (anchors : List AnchorDescendant) (table : List (List Char × List ℝ)),
      lookupGroup pth (anchors.foldl
        (fun t a => appendGroup a.path (probabilityOfTitleWithLength p (a.text.length : ℝ)) t)
        table) =
      lookupGroup pth table ++
        (anchors.filter (fun a => a.path = pth)).map
          (fun a => probabilityOfTitleWithLength p (a.text.length : ℝ)) := by
  intro anchors
  induction anchors with
  | nil => intro table; simp
  | cons a rest ih =>
    intro table
    rw [List.foldl_cons, ih, lookupGroup_appendGroup]
    by_cases h : pth = a.path
    · rw [if_pos h, List.filter_cons]
      simp [h.symm, List.append_assoc]
    · have h2 : ¬a.path = pth := fun hh => h hh.symm
      rw [if_neg h, List.filter_cons]
      simp [h2]

theorem probabilitiesOfTitle_lookup (p : ListExtractorParams) (cluster : List DecoratedNode)
    (pth : List Char) :
    lookupGroup pth (probabilitiesOfTitle p cluster) =
      ((cluster.flatMap (fun e => e.a_descendants)).filter (fun a => a.path = pth)).map
        (fun a => probabilityOfTitleWithLength p (a.text.length : ℝ)) := by
  unfold probabilitiesOfTitle
  suffices hs : ∀ table : List (List Char × List ℝ),
      lookupGroup pth (cluster.foldl
        (fun table e => e.a_descendants.foldl
          (fun t a => appendGroup a.path (probabilityOfTitleWithLength p (a.text.length : ℝ)) t)
          table) table) =
      lookupGroup pth table ++
        ((cluster.flatMap (fun e => e.a_descendants)).filter (fun a => a.path = pth)).map
          (fun a => probabilityOfTitleWithLength p (a.text.length : ℝ)) by
    simpa using hs []
  induction cluster with
  | nil => intro table; simp
  | cons e rest ih =>
    intro table
    rw [List.foldl_cons, ih, lookupGroup_foldl_anchors]
    simp [List.flatMap_cons, List.filter_append, List.append_assoc]

theorem probabilitiesOfTitle_href_blind (p : ListExtractorParams)
    (cluster : List DecoratedNode) (f : AnchorDescendant → Option (List Char)) :
    probabilitiesOfTitle p
        (cluster.map (fun e =>
          { e with a_descendants := e.a_descendants.map (fun a => { a with href := f a }) })) =
      probabilitiesOfTitle p cluster := by
  unfold probabilitiesOfTitle
  simp only [List.foldl_map]

/-- C10: title-path voting counts every anchor descendant: the votes collected
for each path are the probabilities of all anchors carrying that path, with no
href condition, and the whole per-path average table (hence the best-path
choice made from it) is unchanged under arbitrary rewriting of every href,
including erasing them; anchors that can never produce a record still vote. -/
theorem titleVoting_counts_hrefless_anchors (p : ListExtractorParams)
    (cluster : List DecoratedNode) (f : AnchorDescendant → Option (List Char)) :
    (∀ pth, lookupGroup pth (probabilitiesOfTitle p cluster) =
      ((cluster.flatMap (fun e => e.a_descendants)).filter (fun a => a.path = pth)).map
        (fun a => probabilityOfTitleWithLength p (a.text.length : ℝ))) ∧
    probabilitiesOfTitleAvg p
        (cluster.map (fun e =>
          { e with a_descendants := e.a_descendants.map (fun a => { a with href := f a }) })) =
      probabilitiesOfTitleAvg p cluster :=
  ⟨fun pth => probabilitiesOfTitle_lookup p cluster pth, by
    unfold probabilitiesOfTitleAvg
    rw [probabilitiesOfTitle_href_blind]⟩

/-- A sample anchor with a protocol-relative href, for concrete evaluations. -/
def anchorP : AnchorDescendant :=
  { text := ("hello".data), href := some ("//example.com/a".data), path := ("p".data) }

/-- A sample decorated node holding one anchor. -/
def nodeB : DecoratedNode :=
  { number_of_siblings := 5
    parent_selector := ['d']
    a_descendants_group_text_min_length := 10
    a_descendants_group_text_max_length := 20
    similarity_with_siblings := 9/10
    a_descendants := [anchorP] }

theorem extractRecords_url_normalized_witness :
    ({ title := ("hello".data), url := ("http://example.com/a".data) } : ExtractionRecord).url ≠ [] ∧
    ∃ e ∈ [nodeB], ∃ a ∈ e.a_descendants, a.path = ("p".data) ∧
      ∃ u, a.href = some u ∧ u ≠ [] ∧
        ({ title := ("hello".data),
           url := ("http://example.com/a".data) } : ExtractionRecord).title = a.text ∧
        ({ title := ("hello".data),
           url := ("http://example.com/a".data) } : ExtractionRecord).url =
          (if ("//".data).isPrefixOf u then ("http:".data) ++ u else u) :=
  extractRecords_url_normalized ("p".data) [nodeB]
    { title := ("hello".data), url := ("http://example.com/a".data) }
    (by
      have hrec : extractRecords ("p".data) [nodeB] =
          [{ title := ("hello".data), url := ("http://example.com/a".data) }] := by decide
      rw [hrec]
      exact List.mem_singleton.mpr rfl)
